import Mathlib

/-!
Verification of the k-mer overlap assembler in src/Project_L5/L5/2ex.py.

Reads, nodes and contigs are Python strings, embedded as lists of
characters.  Python dicts and Counters are insertion-ordered, which is
observable through Counter.most_common; they are embedded as association
lists in insertion order: a new key is appended at the end, updating an
existing key keeps its position.  The traversal loop of walk_contigs is
embedded with an explicit fuel parameter (walkLoopF, returning none when
the fuel runs out); a separate theorem shows that the fuel bound used by
walkLoop is always sufficient, which is exactly the termination argument
for the Python while-loop.  Python indexing nxt[-1], which raises
IndexError on an empty string, is embedded as pyLast returning an Option,
and the whole traversal returns Except PyErr.  Arithmetic on lengths is
exact: the source comparison acc >= sum(lengths)/2.0 is embedded as
total <= 2 * acc, which agrees with the float comparison on all realistic
totals.  Wall-clock timing in run_assembly is not modelled.
-/

namespace Asm

/-- Errors a run of the Python code can raise.  The only reachable runtime
error in the modelled fragment is IndexError, from nxt[-1] on an empty
node content (which happens exactly when k < 2 produces empty nodes). -/
inductive PyErr where
  | indexError
deriving DecidableEq

/-- A graph node: the content of a length (k-1) substring. -/
abbrev Node : Type := List Char

/-- A Python Counter in insertion order: key/count association list. -/
abbrev Ctr : Type := List (Node × Nat)

/-- A Python dict mapping nodes to Counters, in insertion order
(`edges = defaultdict(Counter)` in make_graph). -/
abbrev EdgeMap : Type := List (Node × Ctr)

/-- Counter lookup with default 0 (`Counter[key]`). -/
def counterVal : Ctr → Node → Nat
  | [], _ => 0
  | (x, c) :: rest, y => if x = y then c else counterVal rest y

/-- Counter increment (`ctr[b] += 1`): an existing key keeps its position,
a new key is appended at the end, as in Python. -/
def bumpCounter : Ctr → Node → Ctr
  | [], b => [(b, 1)]
  | (x, c) :: rest, b => if x = b then (x, c + 1) :: rest else (x, c) :: bumpCounter rest b

/-- `edges[a][b] += 1` on a defaultdict(Counter): an existing source key
keeps its position, a new source key is appended at the end. -/
def addEdge : EdgeMap → Node → Node → EdgeMap
  | [], a, b => [(a, [(b, 1)])]
  | (x, es) :: rest, a, b =>
    if x = a then (x, bumpCounter es b) :: rest else (x, es) :: addEdge rest a b

/-- dict lookup `graph.get(cur)`: the value at the key, if present. -/
def lookupEdges : EdgeMap → Node → Option Ctr
  | [], _ => none
  | (a, es) :: rest, x => if a = x then some es else lookupEdges rest x

/-- Multiplicity of the edge a -> b in the graph (0 if absent). -/
def lookupCount (g : EdgeMap) (a b : Node) : Nat :=
  match lookupEdges g a with
  | none => 0
  | some es => counterVal es b

/-- The state built by make_graph: edges, indeg, outdeg (source lines 68-70). -/
structure GState where
  edges : EdgeMap
  indeg : Ctr
  outdeg : Ctr

/-- `r[i:i+k]`: the window of length k starting at position i. -/
def window (r : List Char) (i k : Nat) : List Char := (r.drop i).take k

/-- The body of make_graph's inner loop (source lines 75-82): skip the
window if it contains the character N, otherwise record the edge
frag[:-1] -> frag[1:] and update the degree counters. -/
def addWindow (st : GState) (frag : List Char) : GState :=
  if 'N' ∈ frag then st
  else
    { edges := addEdge st.edges frag.dropLast (frag.drop 1)
      indeg := bumpCounter st.indeg (frag.drop 1)
      outdeg := bumpCounter st.outdeg frag.dropLast }

/-- One read's contribution (source lines 71-82): a read shorter than k is
skipped; otherwise every window r[i:i+k] for i in range(len(r)-k+1) is
processed in order. -/
def readStep (k : Nat) (st : GState) (r : List Char) : GState :=
  if r.length < k then st
  else (List.range (r.length - k + 1)).foldl (fun s i => addWindow s (window r i k)) st

/-- make_graph (source lines 67-83). -/
def make_graph (reads : List (List Char)) (k : Nat) : GState :=
  reads.foldl (readStep k) ⟨[], [], []⟩

/-- `graph[cur].most_common(1)[0]`: the first element, in insertion order,
among the entries of greatest count.  Python's most_common(1) is
max(items, key=count), which returns the first maximal item. -/
def bestEdge : Ctr → Option (Node × Nat)
  | [] => none
  | e :: rest =>
    match bestEdge rest with
    | none => some e
    | some e2 => if e2.2 > e.2 then some e2 else some e

/-- `s[-1]` on a Python string: the last character, IndexError (none) when
the string is empty. -/
def pyLast : List Char → Option Char
  | [] => none
  | [c] => some c
  | _ :: c :: rest => pyLast (c :: rest)

/-- All edge targets occurring in the graph (with repetition). -/
def targetsOf (g : EdgeMap) : List Node := (g.map (fun p => p.2.map Prod.fst)).flatten

/-- Number of target occurrences not yet visited; the fuel measure of the
while-loop of walk_contigs. -/
def unvisitedCount (g : EdgeMap) (visited : List Node) : Nat :=
  ((targetsOf g).filter (fun t => decide (t ∉ visited))).length

/-- The while-loop of walk_contigs (source lines 95-103), with explicit
fuel; returns none iff the fuel is exhausted before the loop exits.
Loop body: nxt = graph[cur].most_common(1)[0][0]; seq += nxt[-1];
cur = nxt; break on revisit; visited.add(cur); break when
len(seq) > 2_000_000. -/
def walkLoopF : Nat → EdgeMap → Node → List Char → List Node →
    Option (Except PyErr (List Char × List Node))
  | 0, _, _, _, _ => none
  | fuel + 1, g, cur, seq, visited =>
    match lookupEdges g cur with
    | none => some (.ok (seq, visited))
    | some es =>
      match bestEdge es with
      | none => some (.ok (seq, visited))
      | some nxtc =>
        match pyLast nxtc.1 with
        | none => some (.error .indexError)
        | some ch =>
          if nxtc.1 ∈ visited then some (.ok (seq ++ [ch], visited))
          else if (seq ++ [ch]).length > 2000000 then
            some (.ok (seq ++ [ch], nxtc.1 :: visited))
          else walkLoopF fuel g nxtc.1 (seq ++ [ch]) (nxtc.1 :: visited)

/-- The while-loop of walk_contigs, run with one more unit of fuel than
the number of unvisited target occurrences; the fuel-sufficiency theorem
below shows the default branch is never taken. -/
def walkLoop (g : EdgeMap) (cur : Node) (seq : List Char) (visited : List Node) :
    Except PyErr (List Char × List Node) :=
  match walkLoopF (unvisitedCount g visited + 1) g cur seq visited with
  | some r => r
  | none => .ok (seq, visited)

/-- The outer loop of walk_contigs (source lines 89-104): iterate over the
keys of the graph in insertion order, skip visited ones, seed a contig
with the start node's content, mark it visited, run the while-loop, and
collect the contig.  The visited set is shared across contigs. -/
def walkStarts (g : EdgeMap) : List Node → List Node →
    Except PyErr (List (List Char) × List Node)
  | [], visited => .ok ([], visited)
  | s :: rest, visited =>
    if s ∈ visited then walkStarts g rest visited
    else
      match walkLoop g s s (s :: visited) with
      | .error e => .error e
      | .ok sv =>
        match walkStarts g rest sv.2 with
        | .error e => .error e
        | .ok cv => .ok (sv.1 :: cv.1, cv.2)

/-- walk_contigs (source lines 86-105). -/
def walk_contigs (g : EdgeMap) : Except PyErr (List (List Char)) :=
  match walkStarts g (g.map Prod.fst) [] with
  | .error e => .error e
  | .ok cv => .ok cv.1

/-- The N50 accumulation loop of run_assembly (source lines 117-122):
acc += L; if acc >= half then n50 = L and break.  The comparison
acc >= sum/2.0 is embedded exactly as total <= 2 * acc. -/
def n50Loop (total : Nat) : Nat → List Nat → Nat
  | _, [] => 0
  | acc, L :: rest => if total ≤ 2 * (acc + L) then L else n50Loop total (acc + L) rest

/-- `sorted(..., reverse=True)` on the contig lengths (source line 113). -/
def sortDesc (l : List Nat) : List Nat := List.insertionSort (fun a b => b ≤ a) l

/-- The N50 computation of run_assembly (source lines 113-122). -/
def computeN50 (lens : List Nat) : Nat :=
  n50Loop (sortDesc lens).sum 0 (sortDesc lens)

/-- run_assembly (source lines 108-123), returning (n50, number of
contigs); the wall-clock timing component is not modelled. -/
def run_assembly (reads : List (List Char)) (k : Nat) : Except PyErr (Nat × Nat) :=
  match walk_contigs (make_graph reads k).edges with
  | .error e => .error e
  | .ok contigs => .ok (computeN50 (contigs.map List.length), contigs.length)

/-- The four sliding-window reads of the genome ACGTTGCA used by the
exact-reconstruction test case. -/
def demoReads : List (List Char) :=
  ["ACGTT".toList, "CGTTG".toList, "GTTGC".toList, "TTGCA".toList]

/-- Whether the window frag contributes the edge x -> y in make_graph:
the source discards exactly the windows containing the character N
(source line 76), and the edge recorded is frag[:-1] -> frag[1:]. -/
def goodWin (frag x y : List Char) : Bool :=
  decide ('N' ∉ frag) && decide (x = frag.dropLast) && decide (y = frag.drop 1)

/-- How many windows of the read r contribute the edge x -> y. -/
def readEdgeCount (r : List Char) (k : Nat) (x y : Node) : Nat :=
  if r.length < k then 0
  else ((List.range (r.length - k + 1)).filter (fun i => goodWin (window r i k) x y)).length

/-- Well-formedness of a built graph for window size k: every key has
length k-1 and a non-empty outgoing counter whose keys have length k-1. -/
def GraphWF (g : EdgeMap) (k : Nat) : Prop :=
  ∀ p ∈ g, p.1.length = k - 1 ∧ p.2 ≠ [] ∧ ∀ q ∈ p.2, q.1.length = k - 1

end Asm

namespace Asm

lemma counterVal_bumpCounter (b y : Node) :
    ∀ es : Ctr, counterVal (bumpCounter es b) y = counterVal es y + (if y = b then 1 else 0) := by
  intro es
  induction es with
  | nil =>
    rcases eq_or_ne y b with h | h
    · subst h; simp [bumpCounter, counterVal]
    · simp [bumpCounter, counterVal, if_neg h, if_neg (fun hh : b = y => h hh.symm)]
  | cons e rest ih =>
    obtain ⟨x, c⟩ := e
    rcases eq_or_ne x b with hxb | hxb
    · subst hxb
      rcases eq_or_ne x y with hxy | hxy
      · subst hxy; simp [bumpCounter, counterVal]
      · simp [bumpCounter, counterVal, if_neg hxy, if_neg (fun hh : y = x => hxy hh.symm)]
    · rcases eq_or_ne x y with hxy | hxy
      · subst hxy
        simp [bumpCounter, counterVal, if_neg hxb]
      · simp [bumpCounter, counterVal, hxb, hxy, ih]

lemma lookupCount_nil (x y : Node) : lookupCount [] x y = 0 := rfl

lemma lookupCount_cons (key : Node) (es : Ctr) (rest : EdgeMap) (x y : Node) :
    lookupCount ((key, es) :: rest) x y =
      if key = x then counterVal es y else lookupCount rest x y := by
  by_cases h : key = x <;> simp [lookupCount, lookupEdges, h]

lemma lookupCount_addEdge (a b x y : Node) :
    ∀ g : EdgeMap,
      lookupCount (addEdge g a b) x y =
        lookupCount g x y + (if x = a ∧ y = b then 1 else 0) := by
  intro g
  induction g with
  | nil =>
    rcases eq_or_ne a x with hax | hax
    · subst hax
      rcases eq_or_ne b y with hby | hby
      · subst hby; simp [addEdge, lookupCount_cons, lookupCount_nil, counterVal]
      · simp [addEdge, lookupCount_cons, lookupCount_nil, counterVal,
          if_neg hby, if_neg (fun hh : y = b => hby hh.symm)]
    · simp [addEdge, lookupCount_cons, lookupCount_nil, if_neg hax,
        if_neg (fun hc : x = a ∧ y = b => hax hc.1.symm)]
  | cons p rest ih =>
    obtain ⟨key, es⟩ := p
    rcases eq_or_ne key a with hka | hka
    · subst hka
      rcases eq_or_ne key x with hkx | hkx
      · subst hkx
        simp [addEdge, lookupCount_cons, counterVal_bumpCounter]
      · simp [addEdge, lookupCount_cons, if_neg hkx,
          if_neg (fun hc : x = key ∧ y = b => hkx hc.1.symm)]
    · rcases eq_or_ne key x with hkx | hkx
      · subst hkx
        simp [addEdge, lookupCount_cons, if_neg hka,
          if_neg (fun hc : key = a ∧ y = b => hka hc.1)]
      · simp [addEdge, lookupCount_cons, if_neg hka, if_neg hkx, ih]

lemma lookupCount_addWindow (st : GState) (frag x y : List Char) :
    lookupCount (addWindow st frag).edges x y =
      lookupCount st.edges x y + (if goodWin frag x y then 1 else 0) := by
  simp only [addWindow, goodWin]
  by_cases hn : 'N' ∈ frag
  · rw [if_pos hn]
    simp [hn]
  · rw [if_neg hn]
    simp only [lookupCount_addEdge]
    rcases eq_or_ne x frag.dropLast with hx | hx
    · rcases eq_or_ne y (frag.drop 1) with hy | hy
      · simp [hx, hy, hn]
      · simp [hx, hy, hn]
    · simp [hx, hn]

lemma lookupCount_foldWindows (r : List Char) (k : Nat) (x y : Node) :
    ∀ (is : List Nat) (st : GState),
      lookupCount ((is.foldl (fun s i => addWindow s (window r i k)) st)).edges x y =
        lookupCount st.edges x y +
          (is.filter (fun i => goodWin (window r i k) x y)).length := by
  intro is
  induction is with
  | nil => simp
  | cons i rest ih =>
    intro st
    simp only [List.foldl_cons, List.filter_cons]
    rw [ih]
    by_cases hg : goodWin (window r i k) x y
    · simp [hg, lookupCount_addWindow, Nat.add_assoc, Nat.add_comm 1]
    · simp [hg, lookupCount_addWindow]

lemma lookupCount_readStep (r : List Char) (k : Nat) (x y : Node) (st : GState) :
    lookupCount (readStep k st r).edges x y =
      lookupCount st.edges x y + readEdgeCount r k x y := by
  simp only [readStep, readEdgeCount]
  by_cases h : r.length < k
  · simp [h]
  · rw [if_neg h, if_neg h, lookupCount_foldWindows]

lemma lookupCount_make_graph (reads : List (List Char)) (k : Nat) (x y : Node) :
    lookupCount (make_graph reads k).edges x y =
      (reads.map (fun r => readEdgeCount r k x y)).sum := by
  have main : ∀ (rs : List (List Char)) (st : GState),
      lookupCount (rs.foldl (readStep k) st).edges x y =
        lookupCount st.edges x y + (rs.map (fun r => readEdgeCount r k x y)).sum := by
    intro rs
    induction rs with
    | nil => simp
    | cons r rest ih =>
      intro st
      simp only [List.foldl_cons, List.map_cons, List.sum_cons]
      rw [ih, lookupCount_readStep]
      omega
  have h0 : lookupCount (⟨[], [], []⟩ : GState).edges x y = 0 := rfl
  rw [make_graph, main, h0, Nat.zero_add]

/-- C7 counterexample: the claim says a window containing any symbol
outside the canonical alphabet A,C,G,T contributes no edge.  In the code
only the character N is filtered (source line 76): the single window AX of
the read AX with k = 2 contains the non-canonical symbol X, yet it
contributes the edge A -> X with multiplicity 1. -/
theorem c7_counterexample :
    ('X' ∈ (['A', 'X'] : List Char)) ∧ ('X' ∉ (['A', 'C', 'G', 'T'] : List Char)) ∧
    lookupCount (make_graph [['A', 'X']] 2).edges ['A'] ['X'] = 1 := by
  refine ⟨by decide, by decide, rfl⟩

/-- C7 amended: during graph construction exactly the windows containing
the character N are discarded; every other window of length k — including
windows with symbols outside A,C,G,T other than N — contributes its edge,
and malformed symbols are not an error.  The theorem characterises the
multiplicity of every edge of the built graph as the number of
N-free windows of the reads with the matching boundary substrings. -/
theorem c7_amended_n_filter :
    ∀ (reads : List (List Char)) (k : Nat) (x y : Node),
      lookupCount (make_graph reads k).edges x y =
        (reads.map (fun r => readEdgeCount r k x y)).sum :=
  fun reads k x y => lookupCount_make_graph reads k x y

/-- C4 counterexample: the two read sequences are permutations of each
other, yet the contig multisets differ.  With reads AT, AG and k = 2 the
node A has two outgoing edges of equal multiplicity 1; the tie is broken
by Counter insertion order, which depends on the read order, so one order
assembles the contig AT and the other the contig AG. -/
theorem c4_counterexample :
    List.Perm [['A', 'T'], ['A', 'G']] [['A', 'G'], ['A', 'T']] ∧
    walk_contigs (make_graph [['A', 'T'], ['A', 'G']] 2).edges = .ok [['A', 'T']] ∧
    walk_contigs (make_graph [['A', 'G'], ['A', 'T']] 2).edges = .ok [['A', 'G']] ∧
    ¬ List.Perm ([['A', 'T']] : List (List Char)) [['A', 'G']] := by
  refine ⟨List.Perm.swap _ _ _, rfl, rfl, fun h => ?_⟩
  rw [List.perm_singleton] at h
  exact absurd h (by decide)

/-- C4 amended: for every two read sequences that are permutations of each
other and every k, graph construction produces identical edge
multiplicities for every (source, target) pair.  The contig multiset of
the subsequent traversal, however, is not permutation-invariant (see the
counterexample): tie-breaking follows Counter insertion order, which
depends on read order. -/
theorem c4_amended_multiplicities_perm_invariant :
    ∀ (reads1 reads2 : List (List Char)) (k : Nat),
      List.Perm reads1 reads2 →
      ∀ x y : Node,
        lookupCount (make_graph reads1 k).edges x y =
          lookupCount (make_graph reads2 k).edges x y := by
  intro reads1 reads2 k hp x y
  rw [lookupCount_make_graph, lookupCount_make_graph]
  exact List.Perm.sum_eq (hp.map _)

/-- C4 witness: the amended theorem applied to the concrete permuted pair
of reads from the counterexample, at the edge A -> T. -/
theorem c4_witness :
    List.Perm [['A', 'T'], ['A', 'G']] [['A', 'G'], ['A', 'T']] ∧
    lookupCount (make_graph [['A', 'T'], ['A', 'G']] 2).edges ['A'] ['T'] =
      lookupCount (make_graph [['A', 'G'], ['A', 'T']] 2).edges ['A'] ['T'] :=
  ⟨List.Perm.swap _ _ _,
    c4_amended_multiplicities_perm_invariant _ _ 2 (List.Perm.swap _ _ _) ['A'] ['T']⟩

lemma n50Loop_char (total : Nat) :
    ∀ (l : List Nat) (acc : Nat), l ≠ [] → total ≤ 2 * (acc + l.sum) →
      ∃ i, ∃ h : i < l.length,
        n50Loop total acc l = l.get ⟨i, h⟩ ∧
        total ≤ 2 * (acc + (l.take (i + 1)).sum) ∧
        ∀ j < i, 2 * (acc + (l.take (j + 1)).sum) < total := by
  intro l
  induction l with
  | nil => intro acc h; exact absurd rfl h
  | cons L rest ih =>
    intro acc _ hsum
    by_cases hc : total ≤ 2 * (acc + L)
    · refine ⟨0, by simp, ?_, ?_, ?_⟩
      · simp [n50Loop, hc]
      · simpa using hc
      · intro j hj; exact absurd hj (Nat.not_lt_zero j)
    · have hrest : rest ≠ [] := by
        rintro rfl
        simp only [List.sum_cons, List.sum_nil, Nat.add_zero] at hsum
        exact hc hsum
      have hsum2 : total ≤ 2 * ((acc + L) + rest.sum) := by
        simp only [List.sum_cons] at hsum
        omega
      obtain ⟨i, h, heq, hge, hlt⟩ := ih (acc + L) hrest hsum2
      refine ⟨i + 1, Nat.succ_lt_succ h, ?_, ?_, ?_⟩
      · simpa [n50Loop, hc] using heq
      · simp only [List.take_succ_cons, List.sum_cons]
        omega
      · intro j hj
        cases j with
        | zero =>
          simp only [List.take_succ_cons, List.take_zero, List.sum_cons, List.sum_nil]
          omega
        | succ j2 =>
          have hj2 : j2 < i := Nat.lt_of_succ_lt_succ hj
          have := hlt j2 hj2
          simp only [List.take_succ_cons, List.sum_cons]
          omega

/-- C2: for every non-empty sequence of contig lengths, the N50 computed by
run_assembly (sort descending, accumulate until the running sum first
reaches or exceeds half the total, return the length reached) equals the
entry of the descending-sorted list at the first position whose cumulative
sum reaches half the total (the comparison acc >= total/2.0 is stated
integer-exactly as total <= 2*acc); and the contig lengths
50,40,30,20,10 give N50 = 40. -/
theorem c2_n50_characterisation :
    (∀ lens : List Nat, lens ≠ [] →
      ∃ i, ∃ h : i < (sortDesc lens).length,
        computeN50 lens = (sortDesc lens).get ⟨i, h⟩ ∧
        lens.sum ≤ 2 * ((sortDesc lens).take (i + 1)).sum ∧
        ∀ j < i, 2 * ((sortDesc lens).take (j + 1)).sum < lens.sum) ∧
    computeN50 [50, 40, 30, 20, 10] = 40 := by
  constructor
  · intro lens hne
    have hperm : List.Perm (sortDesc lens) lens :=
      List.perm_insertionSort (fun a b => b ≤ a) lens
    have hsum : (sortDesc lens).sum = lens.sum := hperm.sum_eq
    have hlen : (sortDesc lens).length = lens.length := hperm.length_eq
    have hne2 : sortDesc lens ≠ [] := by
      intro hh
      apply hne
      have : lens.length = 0 := by rw [← hlen, hh]; rfl
      exact List.length_eq_zero.mp this
    have hbase : (sortDesc lens).sum ≤ 2 * (0 + (sortDesc lens).sum) := by omega
    obtain ⟨i, h, heq, hge, hlt⟩ := n50Loop_char (sortDesc lens).sum (sortDesc lens) 0 hne2 hbase
    refine ⟨i, h, heq, ?_, ?_⟩
    · rw [← hsum]
      simpa using hge
    · intro j hj
      have := hlt j hj
      rw [← hsum]
      simpa using this
  · rfl

/-- C2 witness: the characterisation applied to the concrete length list
50,40,30,20,10 of the claim. -/
theorem c2_witness :
    ([50, 40, 30, 20, 10] : List Nat) ≠ [] ∧
    (∃ i, ∃ h : i < (sortDesc [50, 40, 30, 20, 10]).length,
      computeN50 [50, 40, 30, 20, 10] = (sortDesc [50, 40, 30, 20, 10]).get ⟨i, h⟩ ∧
      ([50, 40, 30, 20, 10] : List Nat).sum ≤
        2 * ((sortDesc [50, 40, 30, 20, 10]).take (i + 1)).sum ∧
      ∀ j < i, 2 * ((sortDesc [50, 40, 30, 20, 10]).take (j + 1)).sum <
        ([50, 40, 30, 20, 10] : List Nat).sum) :=
  ⟨by decide, c2_n50_characterisation.1 [50, 40, 30, 20, 10] (by decide)⟩

lemma make_graph_all_short (reads : List (List Char)) (k : Nat)
    (h : ∀ r ∈ reads, r.length < k) : make_graph reads k = ⟨[], [], []⟩ := by
  have main : ∀ (rs : List (List Char)) (st : GState), (∀ r ∈ rs, r.length < k) →
      rs.foldl (readStep k) st = st := by
    intro rs
    induction rs with
    | nil => intro st _; rfl
    | cons r rest ih =>
      intro st hall
      simp only [List.foldl_cons]
      rw [readStep, if_pos (hall r (List.mem_cons_self r rest)), ih]
      intro r2 hr2
      exact hall r2 (List.mem_cons_of_mem r hr2)
  exact main reads _ h

/-- C8: when no reads are supplied, or every read is shorter than k so all
reads are filtered out, run_assembly does not fail: it returns zero
contigs and N50 = 0 (the result is (n50, number of contigs) = (0, 0)). -/
theorem c8_empty_input :
    ∀ (reads : List (List Char)) (k : Nat), (∀ r ∈ reads, r.length < k) →
      run_assembly reads k = .ok (0, 0) := by
  intro reads k h
  rw [run_assembly, make_graph_all_short reads k h]
  rfl

/-- C8 witness: the empty read list with k = 4, the concrete example of the
claim, yields zero contigs and N50 = 0. -/
theorem c8_witness :
    (∀ r ∈ ([] : List (List Char)), r.length < 4) ∧
    run_assembly [] 4 = .ok (0, 0) :=
  ⟨by simp, c8_empty_input [] 4 (by simp)⟩

/-- C6 counterexample: the claim says every call with k smaller than 2
fails with InvalidConfig before any graph work.  The code performs no such
validation (and has no InvalidConfig error at all): with k = 1 and an
empty read list the assembler returns a normal result instead of
failing. -/
theorem c6_counterexample : run_assembly [] 1 = .ok (0, 0) := rfl

/-- C6 amended: the code does not validate k.  With k = 1 and no
processable window it returns a normal empty result; with k = 1 and a read
containing a non-N symbol, graph construction proceeds (producing the
empty-string node) and the traversal then fails with an uncaught
IndexError from nxt[-1], after graph work has been done — not with an
InvalidConfig error before it. -/
theorem c6_amended :
    run_assembly [] 1 = .ok (0, 0) ∧
    run_assembly [['A']] 1 = .error .indexError := ⟨rfl, rfl⟩

/-- C1: for the genome ACGTTGCA with k = 4 and the four length-5 sliding
window reads, the first node created by graph construction (hence the
first traversal seed) is ACG, and the greedy traversal yields exactly the
single contig ACGTTGCA. -/
theorem c1_exact_reconstruction :
    ((make_graph demoReads 4).edges.map Prod.fst).head? = some ['A', 'C', 'G'] ∧
    walk_contigs (make_graph demoReads 4).edges =
      .ok [['A', 'C', 'G', 'T', 'T', 'G', 'C', 'A']] := ⟨rfl, rfl⟩

lemma bestEdge_eq_none : ∀ es : Ctr, bestEdge es = none ↔ es = [] := by
  intro es
  cases es with
  | nil => simp [bestEdge]
  | cons e rest =>
    simp only [bestEdge]
    cases hb : bestEdge rest with
    | none => simp
    | some e2 => by_cases h : e2.2 > e.2 <;> simp [h]

lemma bestEdge_mem : ∀ (es : Ctr) (e : Node × Nat), bestEdge es = some e → e ∈ es := by
  intro es
  induction es with
  | nil => intro e h; simp [bestEdge] at h
  | cons hd rest ih =>
    intro e h
    simp only [bestEdge] at h
    cases hb : bestEdge rest with
    | none =>
      rw [hb] at h
      injection h with h2
      subst h2
      exact List.mem_cons_self _ _
    | some e2 =>
      simp only [hb] at h
      by_cases hgt : e2.2 > hd.2
      · rw [if_pos hgt] at h
        injection h with h2
        subst h2
        exact List.mem_cons_of_mem hd (ih e2 hb)
      · rw [if_neg hgt] at h
        injection h with h2
        subst h2
        exact List.mem_cons_self _ _

lemma bestEdge_first_max : ∀ (es : Ctr) (e : Node × Nat), bestEdge es = some e →
    ∃ l1 l2, es = l1 ++ e :: l2 ∧ (∀ q ∈ l1, q.2 < e.2) ∧ (∀ q ∈ l2, q.2 ≤ e.2) := by
  intro es
  induction es with
  | nil => intro e h; simp [bestEdge] at h
  | cons hd rest ih =>
    intro e h
    simp only [bestEdge] at h
    cases hb : bestEdge rest with
    | none =>
      rw [hb] at h
      injection h with h2
      subst h2
      have hrest : rest = [] := (bestEdge_eq_none rest).mp hb
      subst hrest
      exact ⟨[], [], rfl, by simp, by simp⟩
    | some e2 =>
      simp only [hb] at h
      obtain ⟨l1, l2, hsplit, hl1, hl2⟩ := ih e2 hb
      by_cases hgt : e2.2 > hd.2
      · rw [if_pos hgt] at h
        injection h with h2
        subst h2
        refine ⟨hd :: l1, l2, by simp [hsplit], ?_, hl2⟩
        intro q hq
        rcases List.mem_cons.mp hq with hq1 | hq1
        · rw [hq1]; exact hgt
        · exact hl1 q hq1
      · rw [if_neg hgt] at h
        injection h with h2
        subst h2
        refine ⟨[], rest, rfl, by simp, ?_⟩
        intro q hq
        rw [hsplit] at hq
        have he2 : e2.2 ≤ hd.2 := Nat.le_of_not_lt hgt
        rcases List.mem_append.mp hq with hq1 | hq1
        · exact Nat.le_of_lt (Nat.lt_of_lt_of_le (hl1 q hq1) he2)
        · rcases List.mem_cons.mp hq1 with hq2 | hq2
          · rw [hq2]; exact he2
          · exact Nat.le_trans (hl2 q hq2) he2

lemma lookupEdges_mem : ∀ (g : EdgeMap) (x : Node) (es : Ctr),
    lookupEdges g x = some es → (x, es) ∈ g := by
  intro g
  induction g with
  | nil => intro x es h; simp [lookupEdges] at h
  | cons p rest ih =>
    intro x es h
    obtain ⟨a, es0⟩ := p
    simp only [lookupEdges] at h
    by_cases hax : a = x
    · rw [if_pos hax] at h
      injection h with h2
      subst hax
      subst h2
      exact List.mem_cons_self _ _
    · rw [if_neg hax] at h
      exact List.mem_cons_of_mem _ (ih x es h)

lemma lookup_of_key : ∀ (g : EdgeMap) (x : Node), x ∈ g.map Prod.fst →
    ∃ es, lookupEdges g x = some es := by
  intro g
  induction g with
  | nil => intro x h; simp at h
  | cons p rest ih =>
    intro x h
    obtain ⟨a, es0⟩ := p
    by_cases hax : a = x
    · exact ⟨es0, by simp [lookupEdges, hax]⟩
    · simp only [List.map_cons] at h
      rcases List.mem_cons.mp h with h1 | h1
      · exact absurd h1.symm hax
      · obtain ⟨es, hes⟩ := ih x h1
        exact ⟨es, by simp [lookupEdges, hax, hes]⟩

lemma mem_targetsOf (g : EdgeMap) (x : Node) (es : Ctr) (q : Node × Nat)
    (hg : (x, es) ∈ g) (hq : q ∈ es) : q.1 ∈ targetsOf g := by
  unfold targetsOf
  rw [List.mem_flatten]
  exact ⟨es.map Prod.fst, List.mem_map.mpr ⟨(x, es), hg, rfl⟩,
    List.mem_map.mpr ⟨q, hq, rfl⟩⟩

lemma pyLast_isSome : ∀ (l : List Char), l ≠ [] → ∃ c, pyLast l = some c := by
  intro l
  induction l with
  | nil => intro h; exact absurd rfl h
  | cons a rest ih =>
    intro _
    cases rest with
    | nil => exact ⟨a, rfl⟩
    | cons b rest2 =>
      obtain ⟨c, hc⟩ := ih (List.cons_ne_nil b rest2)
      exact ⟨c, by simp [pyLast, hc]⟩

lemma filter_notin_le (visited : List Node) (nxt : Node) :
    ∀ L : List Node,
      (L.filter (fun t => decide (t ∉ nxt :: visited))).length ≤
        (L.filter (fun t => decide (t ∉ visited))).length := by
  intro L
  induction L with
  | nil => simp
  | cons x rest ih =>
    by_cases hxv : x ∈ visited
    · have h1 : decide (x ∉ nxt :: visited) = false := by
        simp [List.mem_cons, hxv]
      have h2 : decide (x ∉ visited) = false := by simp [hxv]
      simp only [List.filter_cons, h1, h2, Bool.false_eq_true, if_false]
      exact ih
    · by_cases hxn : x = nxt
      · have h1 : decide (x ∉ nxt :: visited) = false := by simp [hxn]
        have h2 : decide (x ∉ visited) = true := by simp [hxv]
        simp only [List.filter_cons, h1, h2, Bool.false_eq_true, if_false, if_true,
          List.length_cons]
        omega
      · have h1 : decide (x ∉ nxt :: visited) = true := by
          simp [List.mem_cons, hxn, hxv]
        have h2 : decide (x ∉ visited) = true := by simp [hxv]
        simp only [List.filter_cons, h1, h2, if_true, List.length_cons]
        omega

lemma unvisitedCount_lt (g : EdgeMap) (visited : List Node) (nxt : Node)
    (hmem : nxt ∈ targetsOf g) (hnv : nxt ∉ visited) :
    unvisitedCount g (nxt :: visited) < unvisitedCount g visited := by
  unfold unvisitedCount
  have main : ∀ L : List Node, nxt ∈ L →
      (L.filter (fun t => decide (t ∉ nxt :: visited))).length <
        (L.filter (fun t => decide (t ∉ visited))).length := by
    intro L
    induction L with
    | nil => intro h; simp at h
    | cons x rest ih =>
      intro hm
      by_cases hxn : x = nxt
      · subst hxn
        have h1 : decide (x ∉ x :: visited) = false := by simp
        have h2 : decide (x ∉ visited) = true := by simp [hnv]
        simp only [List.filter_cons, h1, h2, Bool.false_eq_true, if_false, if_true,
          List.length_cons]
        have := filter_notin_le visited x rest
        omega
      · have hm2 : nxt ∈ rest := by
          rcases List.mem_cons.mp hm with h1 | h1
          · exact absurd h1.symm hxn
          · exact h1
        have hih := ih hm2
        by_cases hxv : x ∈ visited
        · have h1 : decide (x ∉ nxt :: visited) = false := by
            simp [List.mem_cons, hxv]
          have h2 : decide (x ∉ visited) = false := by simp [hxv]
          simp only [List.filter_cons, h1, h2, Bool.false_eq_true, if_false]
          exact hih
        · have h1 : decide (x ∉ nxt :: visited) = true := by
            simp [List.mem_cons, hxn, hxv]
          have h2 : decide (x ∉ visited) = true := by simp [hxv]
          simp only [List.filter_cons, h1, h2, if_true, List.length_cons]
          omega
  exact main (targetsOf g) hmem

lemma walkLoopF_isSome :
    ∀ (fuel : Nat) (g : EdgeMap) (cur : Node) (seq : List Char) (visited : List Node),
      unvisitedCount g visited < fuel →
      (walkLoopF fuel g cur seq visited).isSome = true := by
  intro fuel
  induction fuel with
  | zero => intro g cur seq visited h; exact absurd h (Nat.not_lt_zero _)
  | succ n ih =>
    intro g cur seq visited h
    cases hl : lookupEdges g cur with
    | none => simp [walkLoopF, hl]
    | some es =>
      cases hb : bestEdge es with
      | none => simp [walkLoopF, hl, hb]
      | some nxtc =>
        cases hpl : pyLast nxtc.1 with
        | none => simp [walkLoopF, hl, hb, hpl]
        | some ch =>
          by_cases hv : nxtc.1 ∈ visited
          · simp [walkLoopF, hl, hb, hpl, hv]
          · by_cases hcap : (seq ++ [ch]).length > 2000000
            · have hcap2 : 2000000 < seq.length + 1 := by simpa using hcap
              simp [walkLoopF, hl, hb, hpl, hv, hcap2]
            · have hmem : nxtc.1 ∈ targetsOf g :=
                mem_targetsOf g cur es nxtc (lookupEdges_mem g cur es hl)
                  (bestEdge_mem es nxtc hb)
              have hdec := unvisitedCount_lt g visited nxtc.1 hmem hv
              have hlt : unvisitedCount g (nxtc.1 :: visited) < n := by omega
              simp only [walkLoopF, hl, hb, hpl, if_neg hv, if_neg hcap]
              exact ih g nxtc.1 (seq ++ [ch]) (nxtc.1 :: visited) hlt

lemma walkLoopF_nodup :
    ∀ (fuel : Nat) (g : EdgeMap) (cur : Node) (seq : List Char) (visited : List Node)
      (s2 : List Char) (v2 : List Node),
      walkLoopF fuel g cur seq visited = some (.ok (s2, v2)) →
      visited.Nodup → v2.Nodup := by
  intro fuel
  induction fuel with
  | zero => intro g cur seq visited s2 v2 h; simp [walkLoopF] at h
  | succ n ih =>
    intro g cur seq visited s2 v2 h hnd
    cases hl : lookupEdges g cur with
    | none =>
      simp only [walkLoopF, hl] at h
      injection h with h2
      injection h2 with h3
      injection h3 with h4 h5
      rw [← h5]
      exact hnd
    | some es =>
      cases hb : bestEdge es with
      | none =>
        simp only [walkLoopF, hl, hb] at h
        injection h with h2
        injection h2 with h3
        injection h3 with h4 h5
        rw [← h5]
        exact hnd
      | some nxtc =>
        cases hpl : pyLast nxtc.1 with
        | none => simp [walkLoopF, hl, hb, hpl] at h
        | some ch =>
          by_cases hv : nxtc.1 ∈ visited
          · simp only [walkLoopF, hl, hb, hpl, if_pos hv] at h
            injection h with h2
            injection h2 with h3
            injection h3 with h4 h5
            rw [← h5]
            exact hnd
          · by_cases hcap : (seq ++ [ch]).length > 2000000
            · simp only [walkLoopF, hl, hb, hpl, if_neg hv, if_pos hcap] at h
              injection h with h2
              injection h2 with h3
              injection h3 with h4 h5
              rw [← h5]
              exact List.nodup_cons.mpr ⟨hv, hnd⟩
            · simp only [walkLoopF, hl, hb, hpl, if_neg hv, if_neg hcap] at h
              exact ih g nxtc.1 (seq ++ [ch]) (nxtc.1 :: visited) s2 v2 h
                (List.nodup_cons.mpr ⟨hv, hnd⟩)

lemma walkLoopF_ok_of_targets :
    ∀ (fuel : Nat) (g : EdgeMap), (∀ t ∈ targetsOf g, t ≠ []) →
      ∀ (cur : Node) (seq : List Char) (visited : List Node)
        (r : Except PyErr (List Char × List Node)),
        walkLoopF fuel g cur seq visited = some r →
        ∃ s2 v2, r = .ok (s2, v2) ∧ seq.length ≤ s2.length ∧
          (∀ es, lookupEdges g cur = some es → es ≠ [] → seq.length < s2.length) := by
  intro fuel
  induction fuel with
  | zero => intro g _ cur seq visited r h; simp [walkLoopF] at h
  | succ n ih =>
    intro g htg cur seq visited r h
    cases hl : lookupEdges g cur with
    | none =>
      simp only [walkLoopF, hl] at h
      injection h with h2
      refine ⟨seq, visited, h2.symm, Nat.le_refl _, ?_⟩
      intro es hes
      exact absurd hes (by simp)
    | some es =>
      cases hb : bestEdge es with
      | none =>
        have hes : es = [] := (bestEdge_eq_none es).mp hb
        simp only [walkLoopF, hl, hb] at h
        injection h with h2
        refine ⟨seq, visited, h2.symm, Nat.le_refl _, ?_⟩
        intro es2 hes2 hne
        injection hes2 with h3
        exact absurd (h3.symm.trans hes) hne
      | some nxtc =>
        have hne : nxtc.1 ≠ [] :=
          htg nxtc.1 (mem_targetsOf g cur es nxtc (lookupEdges_mem g cur es hl)
            (bestEdge_mem es nxtc hb))
        cases hpl : pyLast nxtc.1 with
        | none =>
          obtain ⟨c, hc⟩ := pyLast_isSome nxtc.1 hne
          rw [hc] at hpl
          exact absurd hpl (by simp)
        | some ch =>
          by_cases hv : nxtc.1 ∈ visited
          · simp only [walkLoopF, hl, hb, hpl, if_pos hv] at h
            injection h with h2
            refine ⟨seq ++ [ch], visited, h2.symm, by simp, ?_⟩
            intro es2 _ _
            simp
          · by_cases hcap : (seq ++ [ch]).length > 2000000
            · simp only [walkLoopF, hl, hb, hpl, if_neg hv, if_pos hcap] at h
              injection h with h2
              refine ⟨seq ++ [ch], nxtc.1 :: visited, h2.symm, by simp, ?_⟩
              intro es2 _ _
              simp
            · simp only [walkLoopF, hl, hb, hpl, if_neg hv, if_neg hcap] at h
              obtain ⟨s2, v2, hr, hmono, _⟩ :=
                ih g htg nxtc.1 (seq ++ [ch]) (nxtc.1 :: visited) r h
              refine ⟨s2, v2, hr, ?_, ?_⟩
              · have : (seq ++ [ch]).length = seq.length + 1 := by simp
                omega
              · intro es2 _ _
                have : (seq ++ [ch]).length = seq.length + 1 := by simp
                omega

/-- C3 counterexample: the claim says ties in edge multiplicity are broken
towards the lexicographically smallest target.  With reads AT, AG and
k = 2, node A has targets T then G (insertion order), both of multiplicity
1; most_common picks T, the first-inserted one, although G is
lexicographically smaller, and the traversal accordingly emits AT. -/
theorem c3_counterexample :
    lookupEdges (make_graph [['A', 'T'], ['A', 'G']] 2).edges ['A'] =
      some [(['T'], 1), (['G'], 1)] ∧
    bestEdge [(['T'], 1), (['G'], 1)] = some (['T'], 1) ∧
    counterVal [(['T'], 1), (['G'], 1)] ['G'] = 1 ∧
    List.Lex (fun a b : Char => a < b) ['G'] ['T'] ∧
    (['T'] : List Char) ≠ ['G'] ∧
    walk_contigs (make_graph [['A', 'T'], ['A', 'G']] 2).edges = .ok [['A', 'T']] :=
  ⟨rfl, rfl, rfl, List.Lex.rel (by decide), by decide, rfl⟩

/-- C3 amended: at every extension step the selected outgoing edge is of
greatest multiplicity, and among edges sharing the greatest multiplicity
the one whose target was first inserted into the Counter is selected
(Python most_common order), not the lexicographically smallest one: the
selected entry splits its edge list into strictly-smaller entries before
it and no-greater entries after it. -/
theorem c3_amended_first_inserted_max :
    ∀ (es : Ctr) (e : Node × Nat), bestEdge es = some e →
      ∃ l1 l2, es = l1 ++ e :: l2 ∧ (∀ q ∈ l1, q.2 < e.2) ∧ (∀ q ∈ l2, q.2 ≤ e.2) :=
  fun es e h => bestEdge_first_max es e h

/-- C3 witness: the amended selection rule applied to the concrete tied
edge list of node A from the counterexample. -/
theorem c3_witness :
    bestEdge [(['T'], 1), (['G'], 1)] = some (['T'], 1) ∧
    (∃ l1 l2, [(['T'], 1), (['G'], 1)] = l1 ++ (['T'], 1) :: l2 ∧
      (∀ q ∈ l1, q.2 < 1) ∧ (∀ q ∈ l2, q.2 ≤ 1)) :=
  ⟨rfl, c3_amended_first_inserted_max [(['T'], 1), (['G'], 1)] (['T'], 1) rfl⟩

/-- C5: the traversal loop always terminates and never marks a node twice.
Part one: with fuel exceeding the number of unvisited target occurrences
the fuelled loop completes (so the Python while-loop, whose iterations
each consume one unvisited target or exit, terminates on every finite
graph, including cyclic ones).  Part two: the visited set stays
duplicate-free — a revisited node ends the contig instead of being marked
again, so no walk consumes the same node twice. -/
theorem c5_termination_and_cycle_guard :
    (∀ (g : EdgeMap) (cur : Node) (seq : List Char) (visited : List Node) (fuel : Nat),
      unvisitedCount g visited < fuel →
      (walkLoopF fuel g cur seq visited).isSome = true) ∧
    (∀ (g : EdgeMap) (cur : Node) (seq : List Char) (visited : List Node) (fuel : Nat)
      (s2 : List Char) (v2 : List Node),
      walkLoopF fuel g cur seq visited = some (.ok (s2, v2)) →
      visited.Nodup → v2.Nodup) :=
  ⟨fun g cur seq visited fuel h => walkLoopF_isSome fuel g cur seq visited h,
   fun g cur seq visited fuel s2 v2 h hnd => walkLoopF_nodup fuel g cur seq visited s2 v2 h hnd⟩

/-- C5 witness: the termination bound and the duplicate-free visited set
on the concrete demo graph, starting from node ACG. -/
theorem c5_witness :
    unvisitedCount (make_graph demoReads 4).edges [['A', 'C', 'G']] < 10 ∧
    (walkLoopF 10 (make_graph demoReads 4).edges ['A', 'C', 'G'] ['A', 'C', 'G']
      [['A', 'C', 'G']]).isSome = true ∧
    walkLoopF 10 (make_graph demoReads 4).edges ['A', 'C', 'G'] ['A', 'C', 'G']
      [['A', 'C', 'G']] =
      some (.ok (['A', 'C', 'G', 'T', 'T', 'G', 'C', 'A'],
        [['G', 'C', 'A'], ['T', 'G', 'C'], ['T', 'T', 'G'], ['G', 'T', 'T'],
          ['C', 'G', 'T'], ['A', 'C', 'G']])) ∧
    ([['G', 'C', 'A'], ['T', 'G', 'C'], ['T', 'T', 'G'], ['G', 'T', 'T'],
      ['C', 'G', 'T'], ['A', 'C', 'G']] : List Node).Nodup :=
  ⟨by decide,
   c5_termination_and_cycle_guard.1 (make_graph demoReads 4).edges ['A', 'C', 'G']
     ['A', 'C', 'G'] [['A', 'C', 'G']] 10 (by decide),
   rfl,
   c5_termination_and_cycle_guard.2 (make_graph demoReads 4).edges ['A', 'C', 'G']
     ['A', 'C', 'G'] [['A', 'C', 'G']] 10 ['A', 'C', 'G', 'T', 'T', 'G', 'C', 'A']
     [['G', 'C', 'A'], ['T', 'G', 'C'], ['T', 'T', 'G'], ['G', 'T', 'T'],
       ['C', 'G', 'T'], ['A', 'C', 'G']] rfl (by decide)⟩

/-- C9 amended: the per-contig length cap is the fixed constant 2,000,000
of the source (line 102), not configurable by the caller — run_assembly
takes only reads and k.  The cap bounds every traversal: once a contig
exceeds the cap the walk stops, so a finished walk starting from a seed of
length L has length at most max (L+1) 2000001. -/
theorem c9_amended_fixed_cap_bound :
    ∀ (fuel : Nat) (g : EdgeMap) (cur : Node) (seq : List Char) (visited : List Node)
      (s2 : List Char) (v2 : List Node),
      walkLoopF fuel g cur seq visited = some (.ok (s2, v2)) →
      s2.length ≤ max (seq.length + 1) 2000001 := by
  intro fuel
  induction fuel with
  | zero => intro g cur seq visited s2 v2 h; simp [walkLoopF] at h
  | succ n ih =>
    intro g cur seq visited s2 v2 h
    have hle : seq.length + 1 ≤ max (seq.length + 1) 2000001 := Nat.le_max_left _ _
    have hri : 2000001 ≤ max (seq.length + 1) 2000001 := Nat.le_max_right _ _
    cases hl : lookupEdges g cur with
    | none =>
      simp only [walkLoopF, hl] at h
      injection h with h2
      injection h2 with h3
      injection h3 with h4 h5
      rw [← h4]
      omega
    | some es =>
      cases hb : bestEdge es with
      | none =>
        simp only [walkLoopF, hl, hb] at h
        injection h with h2
        injection h2 with h3
        injection h3 with h4 h5
        rw [← h4]
        omega
      | some nxtc =>
        cases hpl : pyLast nxtc.1 with
        | none => simp [walkLoopF, hl, hb, hpl] at h
        | some ch =>
          by_cases hv : nxtc.1 ∈ visited
          · simp only [walkLoopF, hl, hb, hpl, if_pos hv] at h
            injection h with h2
            injection h2 with h3
            injection h3 with h4 h5
            have : s2.length = seq.length + 1 := by rw [← h4]; simp
            omega
          · by_cases hcap : (seq ++ [ch]).length > 2000000
            · simp only [walkLoopF, hl, hb, hpl, if_neg hv, if_pos hcap] at h
              injection h with h2
              injection h2 with h3
              injection h3 with h4 h5
              have : s2.length = seq.length + 1 := by rw [← h4]; simp
              omega
            · simp only [walkLoopF, hl, hb, hpl, if_neg hv, if_neg hcap] at h
              have hseqlen : (seq ++ [ch]).length = seq.length + 1 := by simp
              have hihb := ih g nxtc.1 (seq ++ [ch]) (nxtc.1 :: visited) s2 v2 h
              have hcap2 : seq.length + 1 ≤ 2000000 := by omega
              have hmax : max ((seq ++ [ch]).length + 1) 2000001 = 2000001 := by
                apply Nat.max_eq_right
                omega
              rw [hmax] at hihb
              omega

/-- C9 witness: the fixed-cap bound applied to the finished demo walk:
the contig of length 8 satisfies the bound with seed ACG. -/
theorem c9_witness :
    walkLoopF 10 (make_graph demoReads 4).edges ['A', 'C', 'G'] ['A', 'C', 'G']
      [['A', 'C', 'G']] =
      some (.ok (['A', 'C', 'G', 'T', 'T', 'G', 'C', 'A'],
        [['G', 'C', 'A'], ['T', 'G', 'C'], ['T', 'T', 'G'], ['G', 'T', 'T'],
          ['C', 'G', 'T'], ['A', 'C', 'G']])) ∧
    (['A', 'C', 'G', 'T', 'T', 'G', 'C', 'A'] : List Char).length ≤
      max ((['A', 'C', 'G'] : List Char).length + 1) 2000001 :=
  ⟨rfl, c9_amended_fixed_cap_bound 10 (make_graph demoReads 4).edges ['A', 'C', 'G']
     ['A', 'C', 'G'] [['A', 'C', 'G']] ['A', 'C', 'G', 'T', 'T', 'G', 'C', 'A']
     [['G', 'C', 'A'], ['T', 'G', 'C'], ['T', 'T', 'G'], ['G', 'T', 'T'],
       ['C', 'G', 'T'], ['A', 'C', 'G']] rfl⟩

/-- C9 counterexample: the claim says the cap is configurable through an
optional length_cap argument of the entry point.  run_assembly takes no
such argument; had a caller configured a cap of 5, every finished contig
would have length at most 6, yet the code produces a contig of length 8 —
the walk was extended after the contig's length exceeded 5. -/
theorem c9_counterexample :
    walk_contigs (make_graph demoReads 4).edges =
      .ok [['A', 'C', 'G', 'T', 'T', 'G', 'C', 'A']] ∧
    (['A', 'C', 'G', 'T', 'T', 'G', 'C', 'A'] : List Char).length = 8 ∧
    ¬ ((8 : Nat) ≤ 5 + 1) :=
  ⟨rfl, rfl, by decide⟩

lemma bumpCounter_ne_nil : ∀ (es : Ctr) (b : Node), bumpCounter es b ≠ [] := by
  intro es b
  cases es with
  | nil => simp [bumpCounter]
  | cons e rest =>
    obtain ⟨x, c⟩ := e
    by_cases h : x = b <;> simp [bumpCounter, h]

lemma bumpCounter_keys (n : Nat) : ∀ (es : Ctr) (b : Node),
    (∀ q ∈ es, q.1.length = n) → b.length = n →
    ∀ q ∈ bumpCounter es b, q.1.length = n := by
  intro es
  induction es with
  | nil =>
    intro b _ hb q hq
    simp only [bumpCounter, List.mem_singleton] at hq
    subst hq
    exact hb
  | cons e rest ih =>
    intro b hall hb q hq
    obtain ⟨x, c⟩ := e
    by_cases hxb : x = b
    · simp only [bumpCounter, if_pos hxb] at hq
      rcases List.mem_cons.mp hq with h1 | h1
      · subst h1; exact hall (x, c) (List.mem_cons_self _ _)
      · exact hall q (List.mem_cons_of_mem _ h1)
    · simp only [bumpCounter, if_neg hxb] at hq
      rcases List.mem_cons.mp hq with h1 | h1
      · subst h1; exact hall (x, c) (List.mem_cons_self _ _)
      · exact ih b (fun q2 hq2 => hall q2 (List.mem_cons_of_mem _ hq2)) hb q h1

lemma GraphWF_addEdge (k : Nat) : ∀ (g : EdgeMap) (a b : Node),
    GraphWF g k → a.length = k - 1 → b.length = k - 1 →
    GraphWF (addEdge g a b) k := by
  intro g
  induction g with
  | nil =>
    intro a b _ ha hb p hp
    simp only [addEdge, List.mem_singleton] at hp
    subst hp
    refine ⟨ha, by simp, ?_⟩
    intro q hq
    simp only [List.mem_singleton] at hq
    subst hq
    exact hb
  | cons p0 rest ih =>
    intro a b hwf ha hb p hp
    obtain ⟨x, es⟩ := p0
    by_cases hxa : x = a
    · simp only [addEdge, if_pos hxa] at hp
      rcases List.mem_cons.mp hp with h1 | h1
      · subst h1
        obtain ⟨hx1, hx2, hx3⟩ := hwf (x, es) (List.mem_cons_self _ _)
        exact ⟨hx1, bumpCounter_ne_nil es b, bumpCounter_keys (k - 1) es b hx3 hb⟩
      · exact hwf p (List.mem_cons_of_mem _ h1)
    · simp only [addEdge, if_neg hxa] at hp
      rcases List.mem_cons.mp hp with h1 | h1
      · subst h1
        exact hwf (x, es) (List.mem_cons_self _ _)
      · exact ih a b (fun p2 hp2 => hwf p2 (List.mem_cons_of_mem _ hp2)) ha hb p h1

lemma window_length (r : List Char) (i k : Nat) (h : i + k ≤ r.length) :
    (window r i k).length = k := by
  unfold window
  rw [List.length_take, List.length_drop]
  omega

lemma GraphWF_addWindow (k : Nat) (st : GState) (frag : List Char)
    (hlen : frag.length = k) (hwf : GraphWF st.edges k) :
    GraphWF (addWindow st frag).edges k := by
  unfold addWindow
  by_cases hn : 'N' ∈ frag
  · simp only [if_pos hn]
    exact hwf
  · simp only [if_neg hn]
    show GraphWF (addEdge st.edges frag.dropLast (frag.drop 1)) k
    apply GraphWF_addEdge k st.edges _ _ hwf
    · rw [List.length_dropLast, hlen]
    · rw [List.length_drop, hlen]

lemma GraphWF_readStep (k : Nat) (st : GState) (r : List Char)
    (hwf : GraphWF st.edges k) : GraphWF (readStep k st r).edges k := by
  unfold readStep
  by_cases h : r.length < k
  · simp only [if_pos h]
    exact hwf
  · simp only [if_neg h]
    have hk2 : k ≤ r.length := Nat.le_of_not_lt h
    have main : ∀ (is : List Nat) (st2 : GState), (∀ i ∈ is, i + k ≤ r.length) →
        GraphWF st2.edges k →
        GraphWF ((is.foldl (fun s i => addWindow s (window r i k)) st2)).edges k := by
      intro is
      induction is with
      | nil => intro st2 _ hw; exact hw
      | cons i rest ih =>
        intro st2 hall hw
        simp only [List.foldl_cons]
        apply ih
        · intro j hj
          exact hall j (List.mem_cons_of_mem _ hj)
        · exact GraphWF_addWindow k st2 (window r i k)
            (window_length r i k (hall i (List.mem_cons_self _ _))) hw
    apply main
    · intro i hi
      have : i < r.length - k + 1 := List.mem_range.mp hi
      omega
    · exact hwf

lemma GraphWF_make_graph (reads : List (List Char)) (k : Nat) :
    GraphWF (make_graph reads k).edges k := by
  have main : ∀ (rs : List (List Char)) (st : GState), GraphWF st.edges k →
      GraphWF ((rs.foldl (readStep k) st)).edges k := by
    intro rs
    induction rs with
    | nil => intro st h; exact h
    | cons r rest ih =>
      intro st h
      simp only [List.foldl_cons]
      exact ih _ (GraphWF_readStep k st r h)
  apply main
  intro p hp
  exact absurd hp (List.not_mem_nil p)

lemma targets_ne_nil (g : EdgeMap) (k : Nat) (hwf : GraphWF g k) (hk : 2 ≤ k) :
    ∀ t ∈ targetsOf g, t ≠ [] := by
  intro t ht
  unfold targetsOf at ht
  rw [List.mem_flatten] at ht
  obtain ⟨l, hl, htl⟩ := ht
  rw [List.mem_map] at hl
  obtain ⟨p, hp, rfl⟩ := hl
  rw [List.mem_map] at htl
  obtain ⟨q, hq, rfl⟩ := htl
  have h3 := (hwf p hp).2.2 q hq
  intro hnil
  rw [hnil] at h3
  simp only [List.length_nil] at h3
  omega

lemma key_lookup (g : EdgeMap) (k : Nat) (hwf : GraphWF g k) :
    ∀ s ∈ g.map Prod.fst,
      ∃ es, lookupEdges g s = some es ∧ es ≠ [] ∧ s.length = k - 1 := by
  intro s hs
  obtain ⟨es, hes⟩ := lookup_of_key g s hs
  have hmem := lookupEdges_mem g s es hes
  have h := hwf (s, es) hmem
  exact ⟨es, hes, h.2.1, h.1⟩

lemma walkStarts_ok (g : EdgeMap) (k : Nat) (hk : 2 ≤ k) (hwf : GraphWF g k) :
    ∀ (starts : List Node) (visited : List Node),
      (∀ s ∈ starts, s ∈ g.map Prod.fst) →
      ∃ cs vis2, walkStarts g starts visited = .ok (cs, vis2) ∧
        ∀ c ∈ cs, k ≤ c.length := by
  intro starts
  induction starts with
  | nil =>
    intro visited _
    exact ⟨[], visited, rfl, fun c hc => absurd hc (List.not_mem_nil c)⟩
  | cons s rest ih =>
    intro visited hs
    by_cases hv : s ∈ visited
    · obtain ⟨cs, vis2, heq, hlen⟩ :=
        ih visited (fun x hx => hs x (List.mem_cons_of_mem _ hx))
      refine ⟨cs, vis2, ?_, hlen⟩
      simp only [walkStarts, if_pos hv]
      exact heq
    · obtain ⟨es, hes, hesne, hslen⟩ := key_lookup g k hwf s (hs s (List.mem_cons_self _ _))
      obtain ⟨r, hrr⟩ := Option.isSome_iff_exists.mp
        (walkLoopF_isSome _ g s s (s :: visited) (Nat.lt_succ_self _))
      obtain ⟨s2, v2, hr2, hmono, hstep⟩ :=
        walkLoopF_ok_of_targets _ g (targets_ne_nil g k hwf hk) s s (s :: visited) r hrr
      have hwl : walkLoop g s s (s :: visited) = .ok (s2, v2) := by
        unfold walkLoop
        rw [hrr, hr2]
      have hclen : k ≤ s2.length := by
        have h1 := hstep es hes hesne
        omega
      obtain ⟨cs, vis3, heq, hlen⟩ := ih v2 (fun x hx => hs x (List.mem_cons_of_mem _ hx))
      refine ⟨s2 :: cs, vis3, ?_, ?_⟩
      · simp only [walkStarts, if_neg hv, hwl, heq]
      · intro c hc
        rcases List.mem_cons.mp hc with h1 | h1
        · rw [h1]
          exact hclen
        · exact hlen c h1

/-- C10: traversal seeds contigs only from the keys of the adjacency
mapping, and every key of a built graph has at least one outgoing edge and
a seed of length k-1, so for every read list and every k of at least 2 the
traversal succeeds and every emitted contig has length at least k — each
contig follows at least one edge beyond its seed. -/
theorem c10_min_contig_length :
    ∀ (reads : List (List Char)) (k : Nat), 2 ≤ k →
      (walk_contigs (make_graph reads k).edges).isOk = true ∧
      ∀ cs, walk_contigs (make_graph reads k).edges = .ok cs →
        ∀ c ∈ cs, k ≤ c.length := by
  intro reads k hk
  obtain ⟨cs, vis2, heq, hlen⟩ :=
    walkStarts_ok (make_graph reads k).edges k hk (GraphWF_make_graph reads k)
      ((make_graph reads k).edges.map Prod.fst) [] (fun s hs => hs)
  have hwc : walk_contigs (make_graph reads k).edges = .ok cs := by
    unfold walk_contigs
    rw [heq]
  constructor
  · rw [hwc]
    rfl
  · intro cs2 hcs2
    rw [hwc] at hcs2
    injection hcs2 with h2
    subst h2
    exact hlen

/-- C10 witness: the demo graph with k = 4 assembles successfully and its
single contig ACGTTGCA has length 8, at least 4. -/
theorem c10_witness :
    (2 ≤ 4) ∧
    ((walk_contigs (make_graph demoReads 4).edges).isOk = true ∧
      ∀ cs, walk_contigs (make_graph demoReads 4).edges = .ok cs →
        ∀ c ∈ cs, 4 ≤ c.length) :=
  ⟨by decide, c10_min_contig_length demoReads 4 (by decide)⟩

end Asm



